import Mathlib

/-!
Verification development for the generative SMILES model of this repository
(`model.py` and `gen.py`).

Shallow embedding conventions:
* A 1-D "channel-first" tensor of shape (channels, length) is a `List (List ℚ)`:
  the outer list indexes channels, each inner list is one channel row.
  Machine floats are modelled by exact rationals.
* Elementwise nonlinear primitives that are transcendental on the reals are
  abstracted as function parameters: `sg : ℚ → ℚ` stands for `torch.sigmoid`
  (used inside `nn.GLU`), `e : ℚ → ℚ` for `exp` inside `F.softmax`, and
  `ce : List ℚ → ℕ → ℚ` for the per-element term of `nn.CrossEntropyLoss`.
  All theorems below hold for every instantiation of these parameters.
* `weight_norm` is a reparameterization of the convolution weight; the forward
  pass only sees the effective weight tensor, which is what the models below
  carry (universally quantified in all theorems).
* Dropout layers are the identity in inference mode (`model.eval()`), which is
  how they are modelled here; the shape and data-flow facts proved below do not
  depend on the dropout mask.
-/

namespace GenSpec

/-! ## Definitions: shallow embedding of model.py and gen.py -/

/-- Index into a channel row with an integer position; positions outside the
row read as `0`.  This models the zero padding of `nn.Conv1d`. -/
def getZ (l : List ℚ) (i : ℤ) : ℚ :=
  if 0 ≤ i then l.getD i.toNat 0 else 0

/-- Output length of `nn.Conv1d` with stride 1:
`L_out = L_in + 2*padding - dilation*(kernel_size - 1)` (truncated ℕ
subtraction; PyTorch raises when this would be negative). -/
def convOutLen (L k d p : ℕ) : ℕ := L + 2 * p - d * (k - 1)

/-- Sequence length of a channel-first tensor (length of its first row). -/
def rowLen (x : List (List ℚ)) : ℕ := (x.getD 0 []).length

/-- One output entry of `nn.Conv1d`: output channel `o`, position `t`.
`w` is the (effective, after `weight_norm`) weight of shape
(out_channels, in_channels, kernel_size), `b` the bias, `d` the dilation,
`p` the symmetric zero padding. -/
def convEntry (w : List (List (List ℚ))) (b : List ℚ) (k d p : ℕ)
    (x : List (List ℚ)) (o t : ℕ) : ℚ :=
  b.getD o 0 +
    (List.range x.length).foldl (fun acc c =>
      acc + (List.range k).foldl (fun a j =>
        a + ((w.getD o []).getD c []).getD j 0 *
          getZ (x.getD c []) ((t : ℤ) + (j : ℤ) * (d : ℤ) - (p : ℤ))) 0) 0

/-- `nn.Conv1d` (stride 1) on a channel-first tensor. -/
def conv1d (w : List (List (List ℚ))) (b : List ℚ) (k d p : ℕ)
    (x : List (List ℚ)) : List (List ℚ) :=
  (List.range w.length).map fun o =>
    (List.range (convOutLen (rowLen x) k d p)).map fun t => convEntry w b k d p x o t

/-- The Python slice `row[:-p]`.  Note that for `p = 0` Python's `[:-0]` is
`[:0]`, the empty slice. -/
def pyTrimNeg (p : ℕ) (l : List ℚ) : List ℚ :=
  if p = 0 then [] else l.take (l.length - p)

/-- `nn.GLU(dim=1)` on a channel-first tensor: split the channels in two
halves, multiply the first half with the sigmoid (`sg`) of the second. -/
def gluChannels (sg : ℚ → ℚ) (y : List (List ℚ)) : List (List ℚ) :=
  (List.range (y.length / 2)).map fun o =>
    List.zipWith (fun a b => a * sg b) (y.getD o []) (y.getD (y.length / 2 + o) [])

/-- Elementwise sum of two channel rows with PyTorch broadcasting along the
length dimension (a row of length 1 broadcasts against the other row);
mismatched non-broadcastable lengths are a runtime error in PyTorch and are
mapped to `[]` here (this branch is never reached in the theorems below). -/
def addRowB (a b : List ℚ) : List ℚ :=
  if a.length = b.length then List.zipWith (· + ·) a b
  else if b.length = 1 then a.map (fun q => q + b.getD 0 0)
  else if a.length = 1 then b.map (fun q => a.getD 0 0 + q)
  else []

/-- Channelwise tensor sum (`out + x` in `ConvLayer.forward`). -/
def addMat (a b : List (List ℚ)) : List (List ℚ) := List.zipWith addRowB a b

/-- Parameters of `ConvLayer` (model.py).  `convW`/`convB` are the effective
weight and bias of `self.conv` (shape (2*n_outputs, n_inputs, kernel_size));
`transW`/`transB` those of the 1×1 convolution `self.trans`, which the source
constructs only when `n_inputs ≠ n_outputs`. -/
structure ConvLayer where
  n_inputs : ℕ
  n_outputs : ℕ
  kernel_size : ℕ
  dilation : ℕ
  padding : ℕ
  convW : List (List (List ℚ))
  convB : List ℚ
  transW : List (List (List ℚ))
  transB : List ℚ

/-- The gated branch of `ConvLayer.forward`:
`self.glu(y[:,:,:-self.padding]) if self.dilation != self.padding else self.glu(y)`
with `y = self.conv(x)` (dropout is the identity at inference). -/
def gatedOut (sg : ℚ → ℚ) (l : ConvLayer) (x : List (List ℚ)) : List (List ℚ) :=
  let y := conv1d l.convW l.convB l.kernel_size l.dilation l.padding x
  if l.dilation ≠ l.padding then gluChannels sg (y.map (pyTrimNeg l.padding))
  else gluChannels sg y

/-- `ConvLayer.forward` (model.py lines 24-30), inference mode. -/
def ConvLayer.forward (sg : ℚ → ℚ) (l : ConvLayer) (x : List (List ℚ)) :
    List (List ℚ) :=
  let out := gatedOut sg l x
  let xr := if l.n_inputs = l.n_outputs then x else conv1d l.transW l.transB 1 1 0 x
  addMat out xr

/-- Length of `addRowB` as a function of the operand lengths. -/
def addLen (a b : ℕ) : ℕ :=
  if a = b then a else if b = 1 then a else if a = 1 then b else 0

/-- Row-length profile of `ConvLayer.forward`, as a function of the
row-length profile `s` of the input. -/
def layerShape (l : ConvLayer) (s : List ℕ) : List ℕ :=
  let L := s.getD 0 0
  let nOut := convOutLen L l.kernel_size l.dilation l.padding
  let T := if l.dilation ≠ l.padding then (if l.padding = 0 then 0 else nOut - l.padding)
    else nOut
  let outS := List.replicate (l.convW.length / 2) T
  let xrS := if l.n_inputs = l.n_outputs then s else List.replicate l.transW.length L
  List.zipWith addLen outS xrS

/-- A `ConvLayer` with `kernel_size = 2`, `dilation = 1`,
`padding = (kernel_size-1)*dilation = 1` (a configuration the stack builds
when invoked with kernel size 2).  Since `dilation = padding`, the forward
pass skips the trim, so the output is longer than the input. -/
def c1CexLayer : ConvLayer :=
  ⟨1, 1, 2, 1, 1, [[[0, 0]], [[0, 0]]], [0, 0], [], []⟩

/-- A well-formed layer with the default kernel size 3 used for witnesses. -/
def c1Layer : ConvLayer :=
  ⟨1, 1, 3, 1, 2, [[[1, 0, 0]], [[0, 0, 1]]], [0, 0], [[[1]]], [0]⟩

/-- Well-formedness of one stack layer as constructed by `GenEncoder`
(model.py lines 33-46): dilation `2^i ≥ 1`, `padding = (kernel_size-1)*dilation`,
a conv producing `2*n_outputs` feature maps, a 1×1 projection with `n_outputs`
output channels, at least one output channel, and (amended, cf. C1)
`kernel_size ≥ 3`. -/
def ConvLayer.wf (l : ConvLayer) : Prop :=
  3 ≤ l.kernel_size ∧ 1 ≤ l.dilation ∧
    l.padding = (l.kernel_size - 1) * l.dilation ∧
    l.convW.length = 2 * l.n_outputs ∧ l.transW.length = l.n_outputs ∧
    1 ≤ l.n_outputs

/-- Channel chaining of the stack: the first layer consumes `cin` channels,
each following layer consumes its predecessor's output channels. -/
def stackChans : List ConvLayer → ℕ → Prop
  | [], _ => True
  | l :: ls, cin => l.n_inputs = cin ∧ ConvLayer.wf l ∧ stackChans ls l.n_outputs

/-- `tensor.transpose(1, 2)` on a single batch element: `cols` is the size of
the dimension that becomes the outer one. -/
def transposeTo (cols : ℕ) (m : List (List ℚ)) : List (List ℚ) :=
  (List.range cols).map fun c => m.map fun r => r.getD c 0

def dotQ (a b : List ℚ) : ℚ := (List.zipWith (· * ·) a b).foldl (· + ·) 0

/-- One output row of `nn.Linear` applied position-wise. -/
def linearRow (W : List (List ℚ)) (b : List ℚ) (h : List ℚ) : List ℚ :=
  (List.range W.length).map fun v => dotQ (W.getD v []) h + b.getD v 0

/-- Parameters of `GEN` (model.py lines 52-69).  `linW` is the weight of
`self.linear = nn.Linear(input_size, hid_size, bias=False)`, which is
constructed (and hence part of the model state) but never applied in
`forward`. -/
structure GEN where
  input_size : ℕ
  embW : List (List ℚ)
  linW : List (List ℚ)
  layers : List ConvLayer
  decW : List (List ℚ)
  decB : List ℚ

/-- `GEN.forward` (model.py lines 65-69) on one batch element, inference mode:
embed, transpose to channel-first, dilated conv stack, transpose back, decode
to vocabulary logits. -/
def GEN.forward (sg : ℚ → ℚ) (g : GEN) (toks : List ℕ) : List (List ℚ) :=
  let emb := toks.map fun t => g.embW.getD t []
  let x := transposeTo g.input_size emb
  let y := g.layers.foldl (fun a l => ConvLayer.forward sg l a) x
  let h := transposeTo (rowLen y) y
  h.map (linearRow g.decW g.decB)

/-- Two channel-first tensors have the same shape profile. -/
def shapeEq (x₁ x₂ : List (List ℚ)) : Prop :=
  x₁.map List.length = x₂.map List.length

/-- Two channel-first tensors agree, in every channel, at every position
strictly below `i`. -/
def agreeB (i : ℕ) (x₁ x₂ : List (List ℚ)) : Prop :=
  ∀ c t, t < i → (x₁.getD c []).getD t 0 = (x₂.getD c []).getD t 0

/-- A concrete one-layer generative model used for witnesses. -/
def c2Gen : GEN :=
  ⟨1, [[1], [2], [3]], [], [c1Layer], [[1]], [0]⟩

/-- The terminator symbol (newline). -/
def nlChar : Char := Char.ofNat 10

/-- The start symbol, `word = '&'` in the source. -/
def ampChar : Char := '&'

/-- The start token id, `torch.ones(1, 1, dtype=torch.long)`. -/
def startTok : ℕ := 1

/-- `final_output[-1, :]`: the logits row of the last position. -/
def lastRow (m : List (List ℚ)) : List ℚ := m.getD (m.length - 1) []

/-- `F.softmax(·, dim=-1)` with `e` standing for `exp`. -/
def softmaxWith (e : ℚ → ℚ) (l : List ℚ) : List ℚ :=
  l.map fun z => e z / (l.map e).foldl (· + ·) 0

/-- `torch.multinomial(w, num_samples=1)` as an inverse-CDF draw: `r` is a
uniform sample from `[0, total weight)` and the result is the first index
whose cumulative weight exceeds it, so index `i` is drawn with probability
`w i / total`. -/
def multinomialDraw : List ℚ → ℚ → ℕ
  | [], _ => 0
  | w :: ws, r => if r < w then 0 else multinomialDraw ws (r - w) + 1

/-- One draw of the sampling loop: feed the entire current sequence through
the model, softmax the last position's logits, draw by multinomial. -/
def sampleStep (sg e : ℚ → ℚ) (g : GEN) (toks : List ℕ) (r : ℚ) : ℕ :=
  multinomialDraw (softmaxWith e (lastRow (GEN.forward sg g toks))) r

/-- The `while word[-1] != ...` generation loop of `sample` (gen.py lines
66-73).  `rs` is the stream of uniform random draws and also serves as fuel:
a `none` result models a loop that did not terminate within `rs.length`
draws.  Each iteration appends the drawn token to `input` and the drawn
symbol to `word`. -/
def sampleOne (sg e : ℚ → ℚ) (g : GEN) (i2w : ℕ → List Char) :
    List ℚ → List ℕ → List Char → Option (List ℕ × List Char)
  | rs, toks, word =>
    if word.getLast? = some nlChar then some (toks, word)
    else
      match rs with
      | [] => none
      | r :: rest =>
        sampleOne sg e g i2w rest (toks ++ [sampleStep sg e g toks r])
          (word ++ i2w (sampleStep sg e g toks r))

/-- Post-processing of one completed sample (gen.py lines 75-78):
`bool(Chem.MolFromSmiles(word[1:]))` guards a validity counter increment and
the dedup/novelty-guarded insertion into `ss`.  The oracle is modelled in
`Except` so that a raised exception (`error`) is distinguishable from a falsy
return (`ok false`); the source wraps the call in no handler, so an error
propagates. -/
def sampleIter (oracle : List Char → Except Unit Bool) (smi : List (List Char))
    (word : List Char) (st : ℕ × List (List Char)) :
    Except Unit (ℕ × List (List Char)) :=
  match oracle (word.drop 1) with
  | Except.error u => Except.error u
  | Except.ok false => Except.ok st
  | Except.ok true =>
    if word.drop 1 ∉ smi ∧ word.drop 1 ∉ st.2 then
      Except.ok (st.1 + 1, st.2 ++ [word.drop 1])
    else Except.ok (st.1 + 1, st.2)

/-- The `for i in range(num_samples)` loop of `sample`: one random stream per
sample, each draw restarting from `([startTok], ['&'])`.  The state is the
validity counter `n` and the accumulated list `ss`. -/
def sampleRun (sg e : ℚ → ℚ) (g : GEN) (i2w : ℕ → List Char)
    (oracle : List Char → Except Unit Bool) (smi : List (List Char)) :
    List (List ℚ) → ℕ × List (List Char) →
      Option (Except Unit (ℕ × List (List Char)))
  | [], st => some (Except.ok st)
  | rs :: rest, st =>
    match sampleOne sg e g i2w rs [startTok] [ampChar] with
    | none => none
    | some (_, word) =>
      match sampleIter oracle smi word st with
      | Except.error u => some (Except.error u)
      | Except.ok st2 => sampleRun sg e g i2w oracle smi rest st2

/-- Python `readlines`: split a text into lines, each line keeping its
trailing newline character (the final line only ends with a newline when the
file does). -/
def readlines : List Char → List (List Char)
  | [] => []
  | c :: cs =>
    if c = nlChar then [c] :: readlines cs
    else
      match readlines cs with
      | [] => [[c]]
      | l :: ls => (c :: l) :: ls

/-- Python `f.writelines`: concatenate the strings, appending no separator. -/
def writelines (ls : List (List Char)) : List Char := ls.flatten

/-- `inputs = data[:, :-1]` (gen.py lines 20-21 and 45-46). -/
def inputsOf (data : List (List ℕ)) : List (List ℕ) := data.map List.dropLast

/-- `targets = data[:, 1:]`. -/
def targetsOf (data : List (List ℕ)) : List (List ℕ) := data.map (List.drop 1)

/-- `output = model(inputs)`: per-sample logit rows. -/
def logitsOf (sg : ℚ → ℚ) (g : GEN) (data : List (List ℕ)) :
    List (List (List ℚ)) :=
  (inputsOf data).map (GEN.forward sg g)

/-- The per-batch loss
`criterion(output.contiguous().view(-1, n_words), targets.contiguous().view(-1))`
with `criterion = nn.CrossEntropyLoss()` (mean reduction): the row-major
flattening of the logits is paired with the flattening of the targets, and
the mean is taken over all target elements.  `ce logits target` abstracts the
per-element cross entropy `-log softmax(logits)[target]`. -/
def batchLoss (ce : List ℚ → ℕ → ℚ) (sg : ℚ → ℚ) (g : GEN)
    (data : List (List ℕ)) : ℚ :=
  (List.zipWith ce (logitsOf sg g data).flatten (targetsOf data).flatten).foldl
      (· + ·) 0 / (((targetsOf data).flatten.length : ℕ) : ℚ)

/-- `best_vloss = 100` (gen.py line 139). -/
def sentinel : ℚ := 100

/-- The per-epoch checkpoint decision of the training loop (gen.py lines
141-155): after each epoch, record the validation loss and whether
`val_loss < best_vloss` triggered a save (in which case `best_vloss` is
updated to `val_loss`). -/
def checkpointTrace : List ℚ → ℚ → List (ℚ × Bool)
  | [], _ => []
  | v :: rest, best =>
    (v, decide (v < best)) :: checkpointTrace rest (if v < best then v else best)

/-- The validation losses at which a checkpoint was saved, in epoch order. -/
def savedLosses (losses : List ℚ) : List ℚ :=
  ((checkpointTrace losses sentinel).filter (fun p => p.2)).map (fun p => p.1)

/-- A layer whose channel counts differ (so the 1×1 projection is built),
used for witnesses. -/
def c8Layer : ConvLayer :=
  ⟨1, 2, 3, 1, 2, [[[1, 0, 0]], [[0, 0, 1]], [[0, 1, 0]], [[1, 1, 0]]],
    [0, 0, 0, 0], [[[1]], [[2]]], [0, 0]⟩

/-! ## Theorems -/

theorem getD_range_map {α : Type} (d : α) (f : ℕ → α) (n c : ℕ) :
    ((List.range n).map f).getD c d = if c < n then f c else d := by
  rcases Nat.lt_or_ge c n with h | h
  · rw [List.getD_eq_getElem _ _ (by simpa using h)]
    simp [h]
  · rw [List.getD_eq_default _ _ (by simpa using h), if_neg (Nat.not_lt.mpr h)]

theorem getD_zipWith_gen {α β γ : Type} (f : α → β → γ) (da : α) (db : β) (dc : γ) :
    ∀ (a : List α) (b : List β) (t : ℕ), (List.zipWith f a b).getD t dc =
      if t < min a.length b.length then f (a.getD t da) (b.getD t db) else dc
  | [], _, t => by simp
  | _ :: _, [], t => by simp
  | a :: as, b :: bs, 0 => by simp
  | a :: as, b :: bs, t + 1 => by
    simpa using getD_zipWith_gen f da db dc as bs t

theorem getD_map_gen {α β : Type} (f : α → β) (da : α) (db : β) (l : List α) (t : ℕ) :
    (l.map f).getD t db = if t < l.length then f (l.getD t da) else db := by
  rcases Nat.lt_or_ge t l.length with h | h
  · rw [if_pos h, List.getD_eq_getElem _ _ (by simpa using h), List.getD_eq_getElem _ _ h]
    simp
  · rw [if_neg (Nat.not_lt.mpr h), List.getD_eq_default _ _ (by simpa using h)]

theorem getD_take (l : List ℚ) (n t : ℕ) :
    (l.take n).getD t 0 = if t < n then l.getD t 0 else 0 := by
  rcases Nat.lt_or_ge t n with h | h
  · rw [if_pos h]
    rcases Nat.lt_or_ge t l.length with h2 | h2
    · rw [List.getD_eq_getElem _ _ (by simp [h, h2]), List.getD_eq_getElem _ _ h2]
      simp [List.getElem_take]
    · rw [List.getD_eq_default _ _ (by simp; omega), List.getD_eq_default _ _ h2]
  · rw [if_neg (Nat.not_lt.mpr h)]
    exact List.getD_eq_default _ _ (by simp; omega)

theorem getD_map_length (x : List (List ℚ)) (c : ℕ) :
    (x.map List.length).getD c 0 = (x.getD c []).length := by
  induction x generalizing c with
  | nil => simp
  | cons a as ih =>
    cases c with
    | zero => simp
    | succ c => simpa using ih c

theorem addRowB_length (a b : List ℚ) :
    (addRowB a b).length = addLen a.length b.length := by
  unfold addRowB addLen
  split_ifs <;> simp_all

theorem addMat_map_length : ∀ a b : List (List ℚ),
    (addMat a b).map List.length =
      List.zipWith addLen (a.map List.length) (b.map List.length)
  | [], _ => by simp [addMat]
  | _ :: _, [] => by simp [addMat]
  | x :: xs, y :: ys => by
    simp only [addMat, List.zipWith_cons_cons, List.map_cons, addRowB_length]
    exact congrArg _ (addMat_map_length xs ys)

theorem pyTrimNeg_length (p : ℕ) (l : List ℚ) :
    (pyTrimNeg p l).length = if p = 0 then 0 else l.length - p := by
  unfold pyTrimNeg
  split_ifs
  · simp
  · rw [List.length_take]
    omega

theorem conv1d_map_length (w : List (List (List ℚ))) (b : List ℚ) (k d p : ℕ)
    (x : List (List ℚ)) :
    (conv1d w b k d p x).map List.length =
      List.replicate w.length (convOutLen (rowLen x) k d p) := by
  unfold conv1d
  rw [List.map_map]
  have h1 : (List.range w.length).map
      (List.length ∘ fun o => (List.range (convOutLen (rowLen x) k d p)).map
        fun t => convEntry w b k d p x o t) =
      (List.range w.length).map (fun _ => convOutLen (rowLen x) k d p) :=
    List.map_congr_left (by intro o _; simp)
  rw [h1, List.map_const']
  simp

theorem gluChannels_map_length (sg : ℚ → ℚ) (y : List (List ℚ)) (n T : ℕ)
    (h : y.map List.length = List.replicate n T) :
    (gluChannels sg y).map List.length = List.replicate (n / 2) T := by
  have hlen : y.length = n := by
    have := congrArg List.length h
    simpa using this
  have hrow : ∀ c, c < n → (y.getD c []).length = T := by
    intro c hc
    rw [← getD_map_length, h]
    rw [List.getD_eq_getElem _ _ (by simpa using hc)]
    simp
  unfold gluChannels
  rw [List.map_map, hlen]
  have h2 : (List.range (n / 2)).map
      (List.length ∘ fun o => List.zipWith (fun a b => a * sg b)
        (y.getD o []) (y.getD (n / 2 + o) [])) =
      (List.range (n / 2)).map (fun _ => T) := by
    apply List.map_congr_left
    intro o ho
    have ho' := List.mem_range.mp ho
    have hhalf : 2 * (n / 2) ≤ n := by omega
    simp only [Function.comp, List.length_zipWith]
    rw [hrow o (by omega), hrow (n / 2 + o) (by omega)]
    simp
  rw [h2, List.map_const']
  simp

theorem map_pyTrimNeg_map_length (p : ℕ) (y : List (List ℚ)) :
    (y.map (pyTrimNeg p)).map List.length =
      (y.map List.length).map (fun L => if p = 0 then 0 else L - p) := by
  simp only [List.map_map]
  exact List.map_congr_left (by intro r _; simp [pyTrimNeg_length])

/-- The row-length profile of `ConvLayer.forward` is `layerShape` applied to
the input's row-length profile: output shapes depend only on input shapes. -/
theorem gatedOut_map_length (sg : ℚ → ℚ) (l : ConvLayer) (x : List (List ℚ)) :
    (gatedOut sg l x).map List.length =
      List.replicate (l.convW.length / 2)
        (if l.dilation ≠ l.padding then
          (if l.padding = 0 then 0
           else convOutLen (rowLen x) l.kernel_size l.dilation l.padding - l.padding)
         else convOutLen (rowLen x) l.kernel_size l.dilation l.padding) := by
  simp only [gatedOut]
  by_cases h : l.dilation ≠ l.padding
  · rw [if_pos h, if_pos h]
    refine gluChannels_map_length sg _ l.convW.length _ ?_
    rw [map_pyTrimNeg_map_length, conv1d_map_length, List.map_replicate]
  · rw [if_neg h, if_neg h]
    exact gluChannels_map_length sg _ l.convW.length _ (conv1d_map_length _ _ _ _ _ _)

theorem forward_map_length (sg : ℚ → ℚ) (l : ConvLayer) (x : List (List ℚ)) :
    (ConvLayer.forward sg l x).map List.length = layerShape l (x.map List.length) := by
  have hL : (x.map List.length).getD 0 0 = rowLen x := getD_map_length x 0
  have hout := gatedOut_map_length sg l x
  have hxr : (if l.n_inputs = l.n_outputs then x
      else conv1d l.transW l.transB 1 1 0 x).map List.length =
      (if l.n_inputs = l.n_outputs then x.map List.length
       else List.replicate l.transW.length (rowLen x)) := by
    by_cases h : l.n_inputs = l.n_outputs
    · rw [if_pos h, if_pos h]
    · rw [if_neg h, if_neg h, conv1d_map_length]
      congr 1
  simp only [ConvLayer.forward, layerShape, hL]
  rw [addMat_map_length, hout, hxr]

theorem zipWith_replicate_same {α β γ : Type} (f : α → β → γ) (n : ℕ) (a : α) (b : β) :
    List.zipWith f (List.replicate n a) (List.replicate n b) =
      List.replicate n (f a b) := by
  induction n with
  | zero => rfl
  | succ n ih => simp [List.replicate_succ, ih]

/-- On a well-formed configuration (`kernel_size ≥ 3`, `dilation ≥ 1`,
`padding = (kernel_size-1)*dilation`), the shape profile is preserved:
`n_inputs` channels of length `L` become `n_outputs` channels of length `L`. -/
theorem layerShape_rect (l : ConvLayer) (L cin : ℕ)
    (hk : 3 ≤ l.kernel_size) (hd : 1 ≤ l.dilation)
    (hp : l.padding = (l.kernel_size - 1) * l.dilation)
    (hcw : l.convW.length = 2 * l.n_outputs)
    (htw : l.transW.length = l.n_outputs)
    (hcin : cin = l.n_inputs) (hcpos : 1 ≤ cin) :
    layerShape l (List.replicate cin L) = List.replicate l.n_outputs L := by
  have hL : (List.replicate cin L).getD 0 0 = L := by
    rw [List.getD_eq_getElem _ _ (by simpa using hcpos)]
    simp
  have hppos : 0 < l.padding := by
    rw [hp]
    exact Nat.mul_pos (by omega) hd
  have hdp : l.dilation ≠ l.padding := by
    rw [hp]
    have h2 : 2 * l.dilation ≤ (l.kernel_size - 1) * l.dilation :=
      Nat.mul_le_mul_right _ (by omega)
    omega
  have hnOut : convOutLen L l.kernel_size l.dilation l.padding = L + l.padding := by
    unfold convOutLen
    rw [hp]
    have hcomm : l.dilation * (l.kernel_size - 1) = (l.kernel_size - 1) * l.dilation :=
      Nat.mul_comm _ _
    omega
  simp only [layerShape]
  rw [hL, hnOut, if_pos hdp, if_neg (by omega : ¬ l.padding = 0)]
  have hT : L + l.padding - l.padding = L := by omega
  rw [hT, hcw]
  have houtc : 2 * l.n_outputs / 2 = l.n_outputs := by omega
  rw [houtc]
  subst hcin
  split_ifs with h
  · rw [h, zipWith_replicate_same]
    simp [addLen]
  · rw [htw, zipWith_replicate_same]
    simp [addLen]

theorem getD_replicate_of_lt {α : Type} (d a : α) {n c : ℕ} (h : c < n) :
    (List.replicate n a).getD c d = a := by
  rw [List.getD_eq_getElem _ _ (by simpa using h)]
  simp

/-- C1, amended to `kernel_size ≥ 3`: a causally padded `ConvLayer`
(`padding = (kernel_size-1)*dilation`) maps `(n_inputs, L)` to
`(n_outputs, L)` — the sequence length is preserved. -/
theorem convLayer_same_length (sg : ℚ → ℚ) (l : ConvLayer) (L : ℕ)
    (x : List (List ℚ))
    (hk : 3 ≤ l.kernel_size) (hd : 1 ≤ l.dilation)
    (hp : l.padding = (l.kernel_size - 1) * l.dilation)
    (hcw : l.convW.length = 2 * l.n_outputs)
    (htw : l.transW.length = l.n_outputs)
    (hxc : x.length = l.n_inputs) (hcpos : 1 ≤ x.length)
    (hxr : ∀ r ∈ x, r.length = L) :
    (ConvLayer.forward sg l x).length = l.n_outputs ∧
      ∀ r ∈ ConvLayer.forward sg l x, r.length = L := by
  have hxs : x.map List.length = List.replicate x.length L := by
    refine List.eq_replicate_iff.mpr ⟨by simp, ?_⟩
    intro b hb
    obtain ⟨r, hr, rfl⟩ := List.mem_map.mp hb
    exact hxr r hr
  have hshape : (ConvLayer.forward sg l x).map List.length =
      List.replicate l.n_outputs L := by
    rw [forward_map_length, hxs,
      layerShape_rect l L x.length hk hd hp hcw htw hxc hcpos]
  constructor
  · have h := congrArg List.length hshape
    simpa using h
  · intro r hr
    have h : r.length ∈ (ConvLayer.forward sg l x).map List.length :=
      List.mem_map_of_mem _ hr
    rw [hshape] at h
    exact List.eq_of_mem_replicate h

theorem stack_shape (sg : ℚ → ℚ) : ∀ (ls : List ConvLayer) (cin L : ℕ)
    (x : List (List ℚ)), stackChans ls cin → 1 ≤ cin →
    x.map List.length = List.replicate cin L →
    ∃ cout, 1 ≤ cout ∧
      (ls.foldl (fun a l => ConvLayer.forward sg l a) x).map List.length =
        List.replicate cout L
  | [], cin, L, x, _, hc, hx => ⟨cin, hc, hx⟩
  | l :: ls, cin, L, x, h, hc, hx => by
    obtain ⟨hin, ⟨hk, hd, hp, hcw, htw, hno⟩, hrest⟩ := h
    have hx' : (ConvLayer.forward sg l x).map List.length =
        List.replicate l.n_outputs L := by
      rw [forward_map_length, hx, layerShape_rect l L cin hk hd hp hcw htw hin.symm hc]
    simpa using stack_shape sg ls l.n_outputs L _ hrest hno hx'

theorem transposeTo_length (cols : ℕ) (m : List (List ℚ)) :
    (transposeTo cols m).length = cols := by
  simp [transposeTo]

theorem transposeTo_getD (cols : ℕ) (m : List (List ℚ)) (t : ℕ) :
    (transposeTo cols m).getD t [] =
      if t < cols then m.map (fun r => r.getD t 0) else [] := by
  unfold transposeTo
  rw [getD_range_map]

theorem transposeTo_map_length (cols : ℕ) (m : List (List ℚ)) :
    (transposeTo cols m).map List.length = List.replicate cols m.length := by
  unfold transposeTo
  rw [List.map_map]
  have h1 : (List.range cols).map
      (List.length ∘ fun c => m.map fun r => r.getD c 0) =
      (List.range cols).map (fun _ => m.length) :=
    List.map_congr_left (by intro c _; simp)
  rw [h1, List.map_const']
  simp

/-- `GEN.forward` produces one logits row per input position, each of
vocabulary size (`decW.length`). -/
theorem gen_forward_shape (sg : ℚ → ℚ) (g : GEN) (toks : List ℕ)
    (hwf : stackChans g.layers g.input_size) (hE : 1 ≤ g.input_size) :
    (GEN.forward sg g toks).length = toks.length ∧
      ∀ r ∈ GEN.forward sg g toks, r.length = g.decW.length := by
  have hx : (transposeTo g.input_size (toks.map fun t => g.embW.getD t [])).map
      List.length = List.replicate g.input_size toks.length := by
    rw [transposeTo_map_length]
    simp
  obtain ⟨cout, hc1, hy⟩ := stack_shape sg g.layers g.input_size toks.length _ hwf hE hx
  have hyl : rowLen ((g.layers).foldl (fun a l => ConvLayer.forward sg l a)
      (transposeTo g.input_size (toks.map fun t => g.embW.getD t []))) = toks.length := by
    unfold rowLen
    rw [← getD_map_length, hy, getD_replicate_of_lt _ _ (by omega)]
  simp only [GEN.forward]
  constructor
  · simp only [List.length_map, transposeTo_length, hyl]
  · intro r hr
    obtain ⟨hrow, _, rfl⟩ := List.mem_map.mp hr
    simp [linearRow]

/-- Witness for the C1 theorem: a concrete layer (kernel 3, dilation 1,
padding 2) preserves the length of a concrete length-3 input. -/
theorem convLayer_same_length_witness :
    (ConvLayer.forward (fun q => q) c1Layer [[(1 : ℚ), 2, 3]]).length = 1 ∧
      ∀ r ∈ ConvLayer.forward (fun q => q) c1Layer [[(1 : ℚ), 2, 3]], r.length = 3 :=
  convLayer_same_length (fun q => q) c1Layer 3 [[(1 : ℚ), 2, 3]] (by decide) (by decide)
    (by decide) (by decide) (by decide) (by decide) (by decide) (by decide)

/-- Counterexample to C1 as stated: with kernel_size = 2 and dilation = 1 the
stack's padding is `(2-1)*1 = 1 = dilation`, the trim branch is skipped, and a
one-channel input of length 1 produces an output row of length 2. -/
theorem convLayer_length_counterexample :
    c1CexLayer.padding = (c1CexLayer.kernel_size - 1) * c1CexLayer.dilation ∧
      (∀ r ∈ [[(0 : ℚ)]], r.length = 1) ∧
      ¬ (∀ r ∈ ConvLayer.forward (fun q => q) c1CexLayer [[(0 : ℚ)]], r.length = 1) := by
  decide

theorem shapeEq_length {x₁ x₂ : List (List ℚ)} (h : shapeEq x₁ x₂) :
    x₁.length = x₂.length := by
  have h2 := congrArg List.length h
  simpa using h2

theorem shapeEq_row {x₁ x₂ : List (List ℚ)} (h : shapeEq x₁ x₂) (c : ℕ) :
    (x₁.getD c []).length = (x₂.getD c []).length := by
  rw [← getD_map_length, ← getD_map_length, h]

theorem shapeEq_rowLen {x₁ x₂ : List (List ℚ)} (h : shapeEq x₁ x₂) :
    rowLen x₁ = rowLen x₂ := shapeEq_row h 0

theorem getZ_agree {i : ℕ} {r₁ r₂ : List ℚ}
    (h : ∀ t, t < i → r₁.getD t 0 = r₂.getD t 0) {u : ℤ} (hu : u < (i : ℤ)) :
    getZ r₁ u = getZ r₂ u := by
  unfold getZ
  split_ifs with h0
  · exact h u.toNat (by omega)
  · rfl

/-- A convolution entry at position `t` with left padding covering the whole
kernel reach (`d*(k-1) ≤ p`) only reads input positions `≤ t`. -/
theorem convEntry_agree (w : List (List (List ℚ))) (b : List ℚ) (k d p : ℕ)
    {x₁ x₂ : List (List ℚ)} (hc : x₁.length = x₂.length)
    (hkd : d * (k - 1) ≤ p) {i : ℕ} (ha : agreeB i x₁ x₂) {o t : ℕ} (ht : t < i) :
    convEntry w b k d p x₁ o t = convEntry w b k d p x₂ o t := by
  unfold convEntry
  rw [hc]
  congr 1
  refine List.foldl_ext _ _ _ ?_
  intro acc c _
  congr 1
  refine List.foldl_ext _ _ _ ?_
  intro a j hj
  have hj' := List.mem_range.mp hj
  have hjd : j * d ≤ p :=
    le_trans (le_trans (Nat.mul_le_mul_right d (by omega))
      (le_of_eq (Nat.mul_comm _ _))) hkd
  have hz : (j : ℤ) * (d : ℤ) ≤ (p : ℤ) := by exact_mod_cast hjd
  have ht' : (t : ℤ) < (i : ℤ) := by exact_mod_cast ht
  congr 1
  congr 1
  exact getZ_agree (fun u hu => ha c u hu) (by linarith)

theorem conv1d_agree (w : List (List (List ℚ))) (b : List ℚ) (k d p : ℕ)
    {x₁ x₂ : List (List ℚ)} (hc : x₁.length = x₂.length)
    (hL : rowLen x₁ = rowLen x₂) (hkd : d * (k - 1) ≤ p) {i : ℕ}
    (ha : agreeB i x₁ x₂) :
    agreeB i (conv1d w b k d p x₁) (conv1d w b k d p x₂) := by
  intro c t ht
  unfold conv1d
  rw [getD_range_map, getD_range_map, hL]
  split_ifs with h1
  · rw [getD_range_map, getD_range_map]
    split_ifs with h2
    · exact convEntry_agree w b k d p hc hkd ha ht
    · rfl
  · rfl

theorem pyTrimNeg_agree (p : ℕ) {i : ℕ} {r₁ r₂ : List ℚ}
    (hr : r₁.length = r₂.length)
    (h : ∀ t, t < i → r₁.getD t 0 = r₂.getD t 0) :
    ∀ t, t < i → (pyTrimNeg p r₁).getD t 0 = (pyTrimNeg p r₂).getD t 0 := by
  intro t ht
  unfold pyTrimNeg
  split_ifs with h0
  · rfl
  · rw [getD_take, getD_take, hr]
    split_ifs with h1
    · exact h t ht
    · rfl

theorem map_pyTrimNeg_agree (p : ℕ) {i : ℕ} {y₁ y₂ : List (List ℚ)}
    (hs : shapeEq y₁ y₂) (ha : agreeB i y₁ y₂) :
    agreeB i (y₁.map (pyTrimNeg p)) (y₂.map (pyTrimNeg p)) := by
  intro c t ht
  rw [getD_map_gen (pyTrimNeg p) [] [], getD_map_gen (pyTrimNeg p) [] [],
    shapeEq_length hs]
  split_ifs with h1
  · exact pyTrimNeg_agree p (shapeEq_row hs c) (fun u hu => ha c u hu) t ht
  · rfl

theorem gluChannels_agree (sg : ℚ → ℚ) {i : ℕ} {y₁ y₂ : List (List ℚ)}
    (hs : shapeEq y₁ y₂) (ha : agreeB i y₁ y₂) :
    agreeB i (gluChannels sg y₁) (gluChannels sg y₂) := by
  intro c t ht
  unfold gluChannels
  rw [shapeEq_length hs, getD_range_map, getD_range_map]
  split_ifs with h1
  · rw [getD_zipWith_gen _ 0 0 0, getD_zipWith_gen _ 0 0 0,
      shapeEq_row hs c, shapeEq_row hs (y₂.length / 2 + c)]
    split_ifs with h2
    · rw [ha c t ht, ha (y₂.length / 2 + c) t ht]
    · rfl
  · rfl

theorem addRowB_agree {i : ℕ} {a₁ a₂ b₁ b₂ : List ℚ}
    (hla : a₁.length = a₂.length) (hlb : b₁.length = b₂.length)
    (hai : ∀ t, t < i → a₁.getD t 0 = a₂.getD t 0)
    (hbi : ∀ t, t < i → b₁.getD t 0 = b₂.getD t 0) :
    ∀ t, t < i → (addRowB a₁ b₁).getD t 0 = (addRowB a₂ b₂).getD t 0 := by
  intro t ht
  unfold addRowB
  rw [hla, hlb]
  split_ifs with h1 h2 h3
  · rw [getD_zipWith_gen _ 0 0 0, getD_zipWith_gen _ 0 0 0, hla, hlb]
    split_ifs with h4
    · rw [hai t ht, hbi t ht]
    · rfl
  · rw [getD_map_gen _ 0 0, getD_map_gen _ 0 0, hla]
    split_ifs with h4
    · rw [hai t ht, hbi 0 (by omega)]
    · rfl
  · rw [getD_map_gen _ 0 0, getD_map_gen _ 0 0, hlb]
    split_ifs with h4
    · rw [hai 0 (by omega), hbi t ht]
    · rfl
  · rfl

theorem addMat_agree {i : ℕ} {a₁ a₂ b₁ b₂ : List (List ℚ)}
    (hsa : shapeEq a₁ a₂) (hsb : shapeEq b₁ b₂)
    (haa : agreeB i a₁ a₂) (hab : agreeB i b₁ b₂) :
    agreeB i (addMat a₁ b₁) (addMat a₂ b₂) := by
  intro c t ht
  unfold addMat
  rw [getD_zipWith_gen _ [] [] [], getD_zipWith_gen _ [] [] [],
    shapeEq_length hsa, shapeEq_length hsb]
  split_ifs with h1
  · exact addRowB_agree (shapeEq_row hsa c) (shapeEq_row hsb c)
      (fun u hu => haa c u hu) (fun u hu => hab c u hu) t ht
  · rfl

theorem forward_shapeEq (sg : ℚ → ℚ) (l : ConvLayer) {x₁ x₂ : List (List ℚ)}
    (hs : shapeEq x₁ x₂) :
    shapeEq (ConvLayer.forward sg l x₁) (ConvLayer.forward sg l x₂) := by
  unfold shapeEq
  rw [forward_map_length, forward_map_length, hs]

/-- Causality of one `ConvLayer`: with the stack's left padding, output
positions below `i` only depend on input positions below `i`. -/
theorem forward_agree (sg : ℚ → ℚ) (l : ConvLayer) {i : ℕ}
    {x₁ x₂ : List (List ℚ)} (hs : shapeEq x₁ x₂)
    (hkd : l.dilation * (l.kernel_size - 1) ≤ l.padding)
    (ha : agreeB i x₁ x₂) :
    agreeB i (ConvLayer.forward sg l x₁) (ConvLayer.forward sg l x₂) := by
  have hc := shapeEq_length hs
  have hrl := shapeEq_rowLen hs
  have hyA : agreeB i
      (conv1d l.convW l.convB l.kernel_size l.dilation l.padding x₁)
      (conv1d l.convW l.convB l.kernel_size l.dilation l.padding x₂) :=
    conv1d_agree _ _ _ _ _ hc hrl hkd ha
  have hyS : shapeEq
      (conv1d l.convW l.convB l.kernel_size l.dilation l.padding x₁)
      (conv1d l.convW l.convB l.kernel_size l.dilation l.padding x₂) := by
    unfold shapeEq
    rw [conv1d_map_length, conv1d_map_length, hrl]
  have houtA : agreeB i (gatedOut sg l x₁) (gatedOut sg l x₂) := by
    simp only [gatedOut]
    split_ifs with h
    · exact gluChannels_agree sg
        (by unfold shapeEq
            rw [map_pyTrimNeg_map_length, map_pyTrimNeg_map_length]
            exact congrArg _ hyS)
        (map_pyTrimNeg_agree _ hyS hyA)
    · exact gluChannels_agree sg hyS hyA
  have houtS : shapeEq (gatedOut sg l x₁) (gatedOut sg l x₂) := by
    unfold shapeEq
    rw [gatedOut_map_length, gatedOut_map_length, hrl]
  have hxrA : agreeB i
      (if l.n_inputs = l.n_outputs then x₁ else conv1d l.transW l.transB 1 1 0 x₁)
      (if l.n_inputs = l.n_outputs then x₂ else conv1d l.transW l.transB 1 1 0 x₂) := by
    split_ifs with h
    · exact ha
    · exact conv1d_agree _ _ _ _ _ hc hrl (by omega) ha
  have hxrS : shapeEq
      (if l.n_inputs = l.n_outputs then x₁ else conv1d l.transW l.transB 1 1 0 x₁)
      (if l.n_inputs = l.n_outputs then x₂ else conv1d l.transW l.transB 1 1 0 x₂) := by
    split_ifs with h
    · exact hs
    · unfold shapeEq
      rw [conv1d_map_length, conv1d_map_length, hrl]
  simp only [ConvLayer.forward]
  exact addMat_agree houtS hxrS houtA hxrA

theorem stack_agree (sg : ℚ → ℚ) : ∀ (ls : List ConvLayer) {i : ℕ}
    {x₁ x₂ : List (List ℚ)},
    (∀ l ∈ ls, l.dilation * (l.kernel_size - 1) ≤ l.padding) →
    shapeEq x₁ x₂ → agreeB i x₁ x₂ →
    shapeEq (ls.foldl (fun a l => ConvLayer.forward sg l a) x₁)
        (ls.foldl (fun a l => ConvLayer.forward sg l a) x₂) ∧
      agreeB i (ls.foldl (fun a l => ConvLayer.forward sg l a) x₁)
        (ls.foldl (fun a l => ConvLayer.forward sg l a) x₂)
  | [], i, x₁, x₂, _, hs, ha => ⟨hs, ha⟩
  | l :: ls, i, x₁, x₂, hwf, hs, ha => by
    have h1 := hwf l (List.mem_cons_self l ls)
    have hs' := forward_shapeEq sg l hs
    have ha' := forward_agree sg l hs h1 ha
    simpa using stack_agree sg ls
      (fun l' hl' => hwf l' (List.mem_cons_of_mem _ hl')) hs' ha'

/-- C2: Causality of the generative model.  For every pair of token sequences
of equal length that agree at all positions strictly before `i`, `GEN.forward`
(inference mode) produces identical logits at every position strictly below
`i`.  The hypothesis on the layers is the configuration `GenEncoder` builds:
`padding = (kernel_size - 1) * dilation`. -/
theorem gen_causality (sg : ℚ → ℚ) (g : GEN)
    (hp : ∀ l ∈ g.layers, l.padding = (l.kernel_size - 1) * l.dilation)
    (toks₁ toks₂ : List ℕ) (hlen : toks₁.length = toks₂.length) (i : ℕ)
    (htoks : ∀ j, j < i → toks₁.getD j 0 = toks₂.getD j 0) :
    ∀ t, t < i →
      (GEN.forward sg g toks₁).getD t [] = (GEN.forward sg g toks₂).getD t [] := by
  intro t ht
  have hkd : ∀ l ∈ g.layers, l.dilation * (l.kernel_size - 1) ≤ l.padding := by
    intro l hl
    rw [hp l hl, Nat.mul_comm]
  have hembL : (toks₁.map fun tk => g.embW.getD tk []).length =
      (toks₂.map fun tk => g.embW.getD tk []).length := by
    simp [hlen]
  have hembA : ∀ j, j < i →
      (toks₁.map fun tk => g.embW.getD tk []).getD j [] =
        (toks₂.map fun tk => g.embW.getD tk []).getD j [] := by
    intro j hj
    rw [getD_map_gen _ 0 [], getD_map_gen _ 0 [], hlen]
    split_ifs with h
    · rw [htoks j hj]
    · rfl
  have hxS : shapeEq (transposeTo g.input_size (toks₁.map fun tk => g.embW.getD tk []))
      (transposeTo g.input_size (toks₂.map fun tk => g.embW.getD tk [])) := by
    unfold shapeEq
    rw [transposeTo_map_length, transposeTo_map_length, hembL]
  have hxA : agreeB i
      (transposeTo g.input_size (toks₁.map fun tk => g.embW.getD tk []))
      (transposeTo g.input_size (toks₂.map fun tk => g.embW.getD tk [])) := by
    intro c u hu
    unfold transposeTo
    rw [getD_range_map, getD_range_map]
    split_ifs with h
    · rw [getD_map_gen _ [] 0, getD_map_gen _ [] 0, hembL]
      split_ifs with h2
      · rw [hembA u hu]
      · rfl
    · rfl
  obtain ⟨hyS, hyA⟩ := stack_agree sg g.layers hkd hxS hxA
  have hrl := shapeEq_rowLen hyS
  simp only [GEN.forward]
  rw [getD_map_gen _ [] [], getD_map_gen _ [] [], transposeTo_length,
    transposeTo_length, hrl]
  split_ifs with h
  · congr 1
    rw [transposeTo_getD, transposeTo_getD, if_pos h, if_pos h]
    apply List.ext_getElem?
    intro n
    rw [List.getElem?_map, List.getElem?_map]
    rcases Nat.lt_or_ge n (List.foldl (fun a l => ConvLayer.forward sg l a)
        (transposeTo g.input_size (toks₁.map fun tk => g.embW.getD tk []))
        g.layers).length with hn | hn
    · have hn2 : n < (List.foldl (fun a l => ConvLayer.forward sg l a)
          (transposeTo g.input_size (toks₂.map fun tk => g.embW.getD tk []))
          g.layers).length := shapeEq_length hyS ▸ hn
      rw [List.getElem?_eq_getElem hn, List.getElem?_eq_getElem hn2]
      simp only [Option.map_some']
      congr 1
      rw [← List.getD_eq_getElem _ [] hn, ← List.getD_eq_getElem _ [] hn2]
      exact hyA n t ht
    · rw [List.getElem?_eq_none (by omega), List.getElem?_eq_none
        (by rw [← shapeEq_length hyS]; omega)]
  · rfl

/-- Witness for the C2 theorem: two concrete token sequences that agree below
position 1 yield identical logits at position 0. -/
theorem gen_causality_witness :
    (∀ j, j < 1 → [0, 1].getD j 0 = [0, 2].getD j 0) ∧
      (GEN.forward (fun q => q) c2Gen [0, 1]).getD 0 [] =
        (GEN.forward (fun q => q) c2Gen [0, 2]).getD 0 [] :=
  ⟨by decide, gen_causality (fun q => q) c2Gen (by decide) [0, 1] [0, 2]
    (by decide) 1 (by decide) 0 (by decide)⟩

theorem sampleIter_error {oracle : List Char → Except Unit Bool}
    {smi : List (List Char)} {word : List Char} {st : ℕ × List (List Char)}
    {u : Unit} (h : oracle (word.drop 1) = Except.error u) :
    sampleIter oracle smi word st = Except.error u := by
  unfold sampleIter
  rw [h]

theorem sampleIter_ok_false {oracle : List Char → Except Unit Bool}
    {smi : List (List Char)} {word : List Char} {st : ℕ × List (List Char)}
    (h : oracle (word.drop 1) = Except.ok false) :
    sampleIter oracle smi word st = Except.ok st := by
  unfold sampleIter
  rw [h]

theorem sampleIter_ok_true_add {oracle : List Char → Except Unit Bool}
    {smi : List (List Char)} {word : List Char} {st : ℕ × List (List Char)}
    (h : oracle (word.drop 1) = Except.ok true)
    (hm : word.drop 1 ∉ smi ∧ word.drop 1 ∉ st.2) :
    sampleIter oracle smi word st =
      Except.ok (st.1 + 1, st.2 ++ [word.drop 1]) := by
  unfold sampleIter
  rw [h]
  simp only [if_pos hm]

theorem sampleIter_ok_true_skip {oracle : List Char → Except Unit Bool}
    {smi : List (List Char)} {word : List Char} {st : ℕ × List (List Char)}
    (h : oracle (word.drop 1) = Except.ok true)
    (hm : ¬(word.drop 1 ∉ smi ∧ word.drop 1 ∉ st.2)) :
    sampleIter oracle smi word st = Except.ok (st.1 + 1, st.2) := by
  unfold sampleIter
  rw [h]
  simp only [if_neg hm]

/-- C3: structure of the sampling loop.  (i) When the last decoded symbol is
not the terminator, one step feeds the entire current sequence through the
model, takes the logits of the last position only, softmaxes them, draws one
token by multinomial sampling, and appends it to the sequence and its symbol
to the word.  (ii) The loop stops (returning the sequence) exactly when the
word ends with the terminator.  (iii) When the drawn symbol is the
terminator, the step is the last one.  (iv) Every sample restarts from
`([startTok], ['&'])`.  (v) The draw is a weighted random choice, not an
arg-max: on the uniform distribution over two tokens both indices are drawn,
depending on the random value. -/
theorem sampler_step_structure (sg e : ℚ → ℚ) (g : GEN) (i2w : ℕ → List Char) :
    (∀ (rs : List ℚ) (toks : List ℕ) (word : List Char) (r : ℚ),
      word.getLast? ≠ some nlChar →
      sampleOne sg e g i2w (r :: rs) toks word =
        sampleOne sg e g i2w rs
          (toks ++ [multinomialDraw (softmaxWith e (lastRow (GEN.forward sg g toks))) r])
          (word ++ i2w (multinomialDraw (softmaxWith e (lastRow (GEN.forward sg g toks))) r))) ∧
    (∀ (rs : List ℚ) (toks : List ℕ) (word : List Char),
      word.getLast? = some nlChar →
      sampleOne sg e g i2w rs toks word = some (toks, word)) ∧
    (∀ (rs : List ℚ) (toks : List ℕ) (word : List Char) (r : ℚ),
      word.getLast? ≠ some nlChar →
      i2w (sampleStep sg e g toks r) = [nlChar] →
      sampleOne sg e g i2w (r :: rs) toks word =
        some (toks ++ [sampleStep sg e g toks r], word ++ [nlChar])) ∧
    (∀ (oracle : List Char → Except Unit Bool) (smi : List (List Char))
      (rs : List ℚ) (rest : List (List ℚ)) (st : ℕ × List (List Char)),
      sampleRun sg e g i2w oracle smi (rs :: rest) st =
        match sampleOne sg e g i2w rs [startTok] [ampChar] with
        | none => none
        | some (_, word) =>
          match sampleIter oracle smi word st with
          | Except.error u => some (Except.error u)
          | Except.ok st2 => sampleRun sg e g i2w oracle smi rest st2) ∧
    (multinomialDraw [(1 : ℚ)/2, 1/2] (1/4) = 0 ∧
      multinomialDraw [(1 : ℚ)/2, 1/2] (3/4) = 1) := by
  refine ⟨?_, ?_, ?_, ?_, by norm_num [multinomialDraw], by norm_num [multinomialDraw]⟩
  · intro rs toks word r h
    rw [sampleOne, if_neg h]
    rfl
  · intro rs toks word h
    cases rs <;> rw [sampleOne, if_pos h]
  · intro rs toks word r h hterm
    rw [sampleOne, if_neg h]
    show sampleOne sg e g i2w rs (toks ++ [sampleStep sg e g toks r])
      (word ++ i2w (sampleStep sg e g toks r)) = _
    rw [hterm]
    cases rs <;> rw [sampleOne, if_pos (by simp)]
  · intro oracle smi rs rest st
    rfl

/-- Witness for the C3 theorem: a concrete one-step sample in which the first
drawn symbol is the terminator. -/
theorem sampler_step_structure_witness :
    sampleOne (fun q => q) (fun _ => 1) c2Gen (fun _ => [nlChar]) [(1 : ℚ)/2]
        [startTok] [ampChar] =
      some ([startTok] ++ [sampleStep (fun q => q) (fun _ => 1) c2Gen [startTok] ((1 : ℚ)/2)],
        [ampChar] ++ [nlChar]) :=
  (sampler_step_structure (fun q => q) (fun _ => 1) c2Gen (fun _ => [nlChar])).2.2.1
    [] [startTok] [ampChar] ((1 : ℚ)/2) (by decide) (by decide)

theorem sampleRun_cons_none {sg e : ℚ → ℚ} {g : GEN} {i2w : ℕ → List Char}
    {oracle : List Char → Except Unit Bool} {smi : List (List Char)}
    {rs : List ℚ} {rest : List (List ℚ)} {st : ℕ × List (List Char)}
    (hso : sampleOne sg e g i2w rs [startTok] [ampChar] = none) :
    sampleRun sg e g i2w oracle smi (rs :: rest) st = none := by
  rw [sampleRun, hso]

theorem sampleRun_cons_error {sg e : ℚ → ℚ} {g : GEN} {i2w : ℕ → List Char}
    {oracle : List Char → Except Unit Bool} {smi : List (List Char)}
    {rs : List ℚ} {rest : List (List ℚ)} {st : ℕ × List (List Char)}
    {toksr : List ℕ} {word : List Char} {u : Unit}
    (hso : sampleOne sg e g i2w rs [startTok] [ampChar] = some (toksr, word))
    (hit : sampleIter oracle smi word st = Except.error u) :
    sampleRun sg e g i2w oracle smi (rs :: rest) st =
      some (Except.error u) := by
  rw [sampleRun, hso]
  show (match sampleIter oracle smi word st with
    | Except.error u => some (Except.error u)
    | Except.ok st2 => sampleRun sg e g i2w oracle smi rest st2) = _
  rw [hit]

theorem sampleRun_cons_step {sg e : ℚ → ℚ} {g : GEN} {i2w : ℕ → List Char}
    {oracle : List Char → Except Unit Bool} {smi : List (List Char)}
    {rs : List ℚ} {rest : List (List ℚ)} {st st2 : ℕ × List (List Char)}
    {toksr : List ℕ} {word : List Char}
    (hso : sampleOne sg e g i2w rs [startTok] [ampChar] = some (toksr, word))
    (hit : sampleIter oracle smi word st = Except.ok st2) :
    sampleRun sg e g i2w oracle smi (rs :: rest) st =
      sampleRun sg e g i2w oracle smi rest st2 := by
  rw [sampleRun, hso]
  show (match sampleIter oracle smi word st with
    | Except.error u => some (Except.error u)
    | Except.ok st2 => sampleRun sg e g i2w oracle smi rest st2) = _
  rw [hit]

/-- Invariant of the sampling loop: relative to an arbitrary starting state,
the accumulated list grows by at most one element per sample, stays
duplicate-free, and every element not inherited from the start state passed
the oracle and is not in the reference corpus. -/
theorem sampleRun_inv (sg e : ℚ → ℚ) (g : GEN) (i2w : ℕ → List Char)
    (oracle : List Char → Except Unit Bool) (smi : List (List Char)) :
    ∀ (rss : List (List ℚ)) (st : ℕ × List (List Char)) (n : ℕ)
      (ss : List (List Char)),
      sampleRun sg e g i2w oracle smi rss st = some (Except.ok (n, ss)) →
      ss.length ≤ st.2.length + rss.length ∧ (st.2.Nodup → ss.Nodup) ∧
        ∀ s ∈ ss, s ∈ st.2 ∨ (oracle s = Except.ok true ∧ s ∉ smi)
  | [], st, n, ss, h => by
    simp only [sampleRun, Option.some.injEq, Except.ok.injEq] at h
    subst h
    exact ⟨by simp, fun hn => hn, fun s hs => Or.inl hs⟩
  | rs :: rest, st, n, ss, h => by
    cases hso : sampleOne sg e g i2w rs [startTok] [ampChar] with
    | none => rw [sampleRun_cons_none hso] at h; simp at h
    | some pr =>
      obtain ⟨toksr, word⟩ := pr
      cases ho : oracle (word.drop 1) with
      | error u =>
        rw [sampleRun_cons_error hso (sampleIter_error ho)] at h
        simp at h
      | ok b =>
        cases b with
        | false =>
          rw [sampleRun_cons_step hso (sampleIter_ok_false ho)] at h
          obtain ⟨h1, h2, h3⟩ := sampleRun_inv sg e g i2w oracle smi rest st n ss h
          exact ⟨by simp at h1 ⊢; omega, h2, h3⟩
        | true =>
          by_cases hmem : word.drop 1 ∉ smi ∧ word.drop 1 ∉ st.2
          · rw [sampleRun_cons_step hso (sampleIter_ok_true_add ho hmem)] at h
            obtain ⟨h1, h2, h3⟩ :=
              sampleRun_inv sg e g i2w oracle smi rest
                (st.1 + 1, st.2 ++ [word.drop 1]) n ss h
            refine ⟨?_, ?_, ?_⟩
            · simp at h1 ⊢
              omega
            · intro hnd
              apply h2
              have h6 : word.tail ∉ st.2 := by simpa using hmem.2
              simp [List.nodup_append, hnd, h6]
            · intro s hs
              rcases h3 s hs with hmem2 | hvalid
              · rcases List.mem_append.mp hmem2 with h4 | h4
                · exact Or.inl h4
                · have h5 : s = word.drop 1 := by simpa using h4
                  subst h5
                  exact Or.inr ⟨ho, hmem.1⟩
              · exact Or.inr hvalid
          · rw [sampleRun_cons_step hso (sampleIter_ok_true_skip ho hmem)] at h
            obtain ⟨h1, h2, h3⟩ :=
              sampleRun_inv sg e g i2w oracle smi rest (st.1 + 1, st.2) n ss h
            exact ⟨by simp at h1 ⊢; omega, h2, h3⟩

/-- C4: for every completed run of `sample`, a decoded string is in the
generated set only if the oracle accepted it and it is in neither the
reference corpus nor (already) the set — so the set is duplicate-free, never
exceeds `num_samples` (= number of per-sample random streams), and never
contains a corpus string. -/
theorem generatedSet_invariant (sg e : ℚ → ℚ) (g : GEN) (i2w : ℕ → List Char)
    (oracle : List Char → Except Unit Bool) (smi : List (List Char))
    (rss : List (List ℚ)) (n : ℕ) (ss : List (List Char))
    (hrun : sampleRun sg e g i2w oracle smi rss (0, []) =
      some (Except.ok (n, ss))) :
    ss.length ≤ rss.length ∧ ss.Nodup ∧
      ∀ s ∈ ss, oracle s = Except.ok true ∧ s ∉ smi := by
  obtain ⟨h1, h2, h3⟩ := sampleRun_inv sg e g i2w oracle smi rss (0, []) n ss hrun
  refine ⟨by simpa using h1, h2 (by simp), ?_⟩
  intro s hs
  rcases h3 s hs with h | h
  · simp at h
  · exact h

/-- Witness for the C4 theorem: a concrete single-sample run. -/
theorem generatedSet_invariant_witness :
    ([[nlChar]] : List (List Char)).length ≤ 1 ∧
      ([[nlChar]] : List (List Char)).Nodup ∧
      ∀ s ∈ ([[nlChar]] : List (List Char)),
        (fun _ : List Char => (Except.ok true : Except Unit Bool)) s =
            Except.ok true ∧ s ∉ ([] : List (List Char)) := by
  have h := generatedSet_invariant (fun q => q) (fun _ => 1) c2Gen
    (fun _ => [nlChar]) (fun _ : List Char => (Except.ok true : Except Unit Bool))
    [] [[(1 : ℚ)/2]] 1 [[nlChar]] rfl
  exact h

/-- Counterexample to C7 as stated: with an oracle that raises an exception,
the exception is not caught and propagates out of the sampling loop (the run
aborts with the error instead of completing). -/
theorem oracle_exception_counterexample :
    sampleRun (fun q => q) (fun _ => 1) c2Gen (fun _ => [nlChar])
        (fun _ => Except.error ()) [] [[(1 : ℚ)/2]] (0, []) =
      some (Except.error ()) := rfl

/-- C7 amended: the source wraps the validity oracle in no exception handler.
An oracle exception propagates out of the per-sample post-processing (and
aborts the whole sampling run); only a falsy return (`ok false`) is treated
as "invalid", leaving the state unchanged and letting sampling continue, so a
run only completes through all `num_samples` draws when the oracle returns
(rather than raises) on every decoded string. -/
theorem oracle_exception_propagation (oracle : List Char → Except Unit Bool)
    (smi : List (List Char)) :
    (∀ (word : List Char) (st : ℕ × List (List Char)) (u : Unit),
      sampleIter oracle smi word st = Except.error u ↔
        oracle (word.drop 1) = Except.error u) ∧
    (∀ (word : List Char) (st : ℕ × List (List Char)),
      oracle (word.drop 1) = Except.ok false →
        sampleIter oracle smi word st = Except.ok st) ∧
    (∀ (sg e : ℚ → ℚ) (g : GEN) (i2w : ℕ → List Char),
      (∀ s, oracle s ≠ Except.error ()) →
      ∀ (rss : List (List ℚ)) (st : ℕ × List (List Char)) (u : Unit),
        sampleRun sg e g i2w oracle smi rss st ≠ some (Except.error u)) := by
  refine ⟨?_, fun word st h => sampleIter_ok_false h, ?_⟩
  · intro word st u
    constructor
    · intro h
      cases ho : oracle (word.drop 1) with
      | error u2 =>
        cases u2
        cases u
        rfl
      | ok b =>
        cases b with
        | false => rw [sampleIter_ok_false ho] at h; simp at h
        | true =>
          by_cases hmem : word.drop 1 ∉ smi ∧ word.drop 1 ∉ st.2
          · rw [sampleIter_ok_true_add ho hmem] at h; simp at h
          · rw [sampleIter_ok_true_skip ho hmem] at h; simp at h
    · intro h
      exact sampleIter_error h
  · intro sg e g i2w hno rss
    induction rss with
    | nil =>
      intro st u h
      simp [sampleRun] at h
    | cons rs rest ih =>
      intro st u h
      cases hso : sampleOne sg e g i2w rs [startTok] [ampChar] with
      | none => rw [sampleRun_cons_none hso] at h; simp at h
      | some pr =>
        obtain ⟨toksr, word⟩ := pr
        cases ho : oracle (word.drop 1) with
        | error u2 =>
          cases u2
          exact hno _ ho
        | ok b =>
          cases b with
          | false =>
            rw [sampleRun_cons_step hso (sampleIter_ok_false ho)] at h
            exact ih st u h
          | true =>
            by_cases hmem : word.drop 1 ∉ smi ∧ word.drop 1 ∉ st.2
            · rw [sampleRun_cons_step hso (sampleIter_ok_true_add ho hmem)] at h
              exact ih _ u h
            · rw [sampleRun_cons_step hso (sampleIter_ok_true_skip ho hmem)] at h
              exact ih _ u h

/-- Witness for the C7 amended theorem: a falsy oracle return leaves the
state unchanged. -/
theorem oracle_exception_propagation_witness :
    sampleIter (fun _ => Except.ok false) [] [ampChar, nlChar] (0, []) =
      Except.ok (0, []) :=
  (oracle_exception_propagation (fun _ => Except.ok false) []).2.1
    [ampChar, nlChar] (0, []) rfl

theorem readlines_ne_nil (c : Char) (cs : List Char) :
    readlines (c :: cs) ≠ [] := by
  rw [readlines]
  split_ifs
  · simp
  · cases h : readlines cs <;> simp

theorem getLast?_cons_ne {α : Type} (a : α) {l : List α} (h : l ≠ []) :
    (a :: l).getLast? = l.getLast? := by
  cases l with
  | nil => exact absurd rfl h
  | cons b t => rw [List.getLast?_cons_cons]

/-- Lines read from a newline-terminated text are nonempty and
newline-terminated. -/
theorem readlines_terminated : ∀ (s : List Char),
    s.getLast? = some nlChar →
    ∀ line ∈ readlines s, line ≠ [] ∧ line.getLast? = some nlChar
  | [], h => by simp at h
  | c :: cs, h => by
    intro line hline
    rw [readlines] at hline
    by_cases hc : c = nlChar
    · rw [if_pos hc] at hline
      rcases List.mem_cons.mp hline with h1 | h1
      · subst h1
        exact ⟨by simp, by rw [hc]; rfl⟩
      · have hcs : cs ≠ [] := by
          intro he
          subst he
          simp [readlines] at h1
        have hlast : cs.getLast? = some nlChar := by
          rwa [getLast?_cons_ne c hcs] at h
        exact readlines_terminated cs hlast line h1
    · rw [if_neg hc] at hline
      have hcs : cs ≠ [] := by
        intro he
        subst he
        simp at h
        exact hc h
      obtain ⟨c2, cs2, rfl⟩ := List.exists_cons_of_ne_nil hcs
      have hlast : (c2 :: cs2).getLast? = some nlChar := by
        rwa [getLast?_cons_ne c (by simp)] at h
      cases hrc : readlines (c2 :: cs2) with
      | nil => exact absurd hrc (readlines_ne_nil c2 cs2)
      | cons l ls =>
        rw [hrc] at hline
        rcases List.mem_cons.mp hline with h1 | h1
        · subst h1
          have h2 := readlines_terminated (c2 :: cs2) hlast l (by rw [hrc]; simp)
          exact ⟨by simp, by rw [getLast?_cons_ne c h2.1]; exact h2.2⟩
        · exact readlines_terminated (c2 :: cs2) hlast line (by rw [hrc]; simp [h1])

/-- Any terminating result of the generation loop ends with the terminator
symbol and extends the initial word. -/
theorem sampleOne_word_shape (sg e : ℚ → ℚ) (g : GEN) (i2w : ℕ → List Char)
    (rs : List ℚ) :
    ∀ (toks : List ℕ) (word : List Char) (toksr : List ℕ) (wordr : List Char),
      sampleOne sg e g i2w rs toks word = some (toksr, wordr) →
      wordr.getLast? = some nlChar ∧ ∃ ext, wordr = word ++ ext := by
  induction rs with
  | nil =>
    intro toks word toksr wordr h
    rw [sampleOne] at h
    by_cases hw : word.getLast? = some nlChar
    · rw [if_pos hw] at h
      obtain ⟨-, h2⟩ : toks = toksr ∧ word = wordr := by simpa using h
      subst h2
      exact ⟨hw, [], by simp⟩
    · rw [if_neg hw] at h
      simp at h
  | cons r rest ih =>
    intro toks word toksr wordr h
    rw [sampleOne] at h
    by_cases hw : word.getLast? = some nlChar
    · rw [if_pos hw] at h
      obtain ⟨-, h2⟩ : toks = toksr ∧ word = wordr := by simpa using h
      subst h2
      exact ⟨hw, [], by simp⟩
    · rw [if_neg hw] at h
      obtain ⟨h1, ext, h2⟩ := ih _ _ _ _ h
      exact ⟨h1, i2w (sampleStep sg e g toks r) ++ ext,
        by rw [h2, List.append_assoc]⟩

/-- Every string in the final generated set either was there initially or is
the word of a completed sample with its leading start symbol removed. -/
theorem sampleRun_added_form (sg e : ℚ → ℚ) (g : GEN) (i2w : ℕ → List Char)
    (oracle : List Char → Except Unit Bool) (smi : List (List Char)) :
    ∀ (rss : List (List ℚ)) (st : ℕ × List (List Char)) (n : ℕ)
      (ss : List (List Char)),
      sampleRun sg e g i2w oracle smi rss st = some (Except.ok (n, ss)) →
      ∀ s ∈ ss, s ∈ st.2 ∨
        ∃ rs toksr, sampleOne sg e g i2w rs [startTok] [ampChar] =
          some (toksr, ampChar :: s)
  | [], st, n, ss, h => by
    simp only [sampleRun, Option.some.injEq, Except.ok.injEq] at h
    subst h
    exact fun s hs => Or.inl hs
  | rs :: rest, st, n, ss, h => by
    cases hso : sampleOne sg e g i2w rs [startTok] [ampChar] with
    | none => rw [sampleRun_cons_none hso] at h; simp at h
    | some pr =>
      obtain ⟨toksr, word⟩ := pr
      have hword : word = ampChar :: word.drop 1 := by
        obtain ⟨h1, ext, h2⟩ := sampleOne_word_shape sg e g i2w rs _ _ _ _ hso
        subst h2
        cases ext with
        | nil => simp [ampChar, nlChar] at h1
        | cons a t => simp
      cases ho : oracle (word.drop 1) with
      | error u =>
        rw [sampleRun_cons_error hso (sampleIter_error ho)] at h
        simp at h
      | ok b =>
        cases b with
        | false =>
          rw [sampleRun_cons_step hso (sampleIter_ok_false ho)] at h
          exact sampleRun_added_form sg e g i2w oracle smi rest st n ss h
        | true =>
          by_cases hmem : word.drop 1 ∉ smi ∧ word.drop 1 ∉ st.2
          · rw [sampleRun_cons_step hso (sampleIter_ok_true_add ho hmem)] at h
            intro s hs
            rcases sampleRun_added_form sg e g i2w oracle smi rest
              (st.1 + 1, st.2 ++ [word.drop 1]) n ss h s hs with h4 | h4
            · rcases List.mem_append.mp h4 with h5 | h5
              · exact Or.inl h5
              · have h6 : s = word.drop 1 := by simpa using h5
                subst h6
                exact Or.inr ⟨rs, toksr, by rw [← hword]; exact hso⟩
            · exact Or.inr h4
          · rw [sampleRun_cons_step hso (sampleIter_ok_true_skip ho hmem)] at h
            exact sampleRun_added_form sg e g i2w oracle smi rest
              (st.1 + 1, st.2) n ss h

/-- C10: every string added to the generated set by `sample` is a completed
decoded word with its leading start symbol removed, and it ends with the
terminator (newline); the reference corpus, read with `readlines` from a
newline-terminated text, consists of lines in exactly that
terminator-suffixed form (so the membership tests compare like with like);
and `writelines` concatenates the strings without appending any separator. -/
theorem generated_strings_form (sg e : ℚ → ℚ) (g : GEN) (i2w : ℕ → List Char)
    (oracle : List Char → Except Unit Bool) (smi : List (List Char)) :
    (∀ (rss : List (List ℚ)) (n : ℕ) (ss : List (List Char)),
      sampleRun sg e g i2w oracle smi rss (0, []) = some (Except.ok (n, ss)) →
      ∀ s ∈ ss, s ≠ [] ∧ s.getLast? = some nlChar ∧
        ∃ rs toksr, sampleOne sg e g i2w rs [startTok] [ampChar] =
          some (toksr, ampChar :: s)) ∧
    (∀ content : List Char, content.getLast? = some nlChar →
      ∀ line ∈ readlines content, line ≠ [] ∧ line.getLast? = some nlChar) ∧
    (∀ ls : List (List Char),
      (writelines ls).length = (ls.map List.length).sum ∧
      ∀ (a : List Char) (tl : List (List Char)),
        writelines (a :: tl) = a ++ writelines tl) := by
  refine ⟨?_, readlines_terminated, ?_⟩
  · intro rss n ss hrun s hs
    rcases sampleRun_added_form sg e g i2w oracle smi rss (0, []) n ss hrun s hs
      with h | h
    · simp at h
    · obtain ⟨rs, toksr, hso⟩ := h
      obtain ⟨h1, ext, h2⟩ := sampleOne_word_shape sg e g i2w rs _ _ _ _ hso
      have hse : s = ext := by simpa using h2
      subst hse
      have hne : s ≠ [] := by
        intro he
        subst he
        simp [ampChar, nlChar] at h1
      refine ⟨hne, ?_, rs, toksr, hso⟩
      rwa [getLast?_cons_ne ampChar hne] at h1
  · intro ls
    exact ⟨by simp [writelines], fun a tl => by simp [writelines]⟩

/-- Witness for the C10 theorem: a concrete run adding one string, and a
concrete two-character newline-terminated corpus. -/
theorem generated_strings_form_witness :
    (∀ s ∈ ([[nlChar]] : List (List Char)), s ≠ [] ∧ s.getLast? = some nlChar ∧
      ∃ rs toksr, sampleOne (fun q => q) (fun _ : ℚ => (1 : ℚ)) c2Gen
        (fun _ => [nlChar]) rs [startTok] [ampChar] =
          some (toksr, ampChar :: s)) ∧
    ∀ line ∈ readlines [ampChar, nlChar],
      line ≠ [] ∧ line.getLast? = some nlChar := by
  constructor
  · intro s hs
    exact (generated_strings_form (fun q => q) (fun _ : ℚ => (1 : ℚ)) c2Gen
      (fun _ => [nlChar]) (fun _ : List Char => (Except.ok true : Except Unit Bool))
      []).1 [[(1 : ℚ)/2]] 1 [[nlChar]] rfl s hs
  · intro line hline
    exact (generated_strings_form (fun q => q) (fun _ : ℚ => (1 : ℚ)) c2Gen
      (fun _ => [nlChar]) (fun _ : List Char => (Except.ok true : Except Unit Bool))
      []).2.1 [ampChar, nlChar] rfl line hline

/-- C5: for a batch of sequences of length `L`, training and evaluation use
input `sequence[0:L-1]` and target `sequence[1:L]`, the forward pass yields
logits of shape (batch, L-1, vocab), and the loss is the mean cross-entropy
of flattened logits against flattened targets: the sum over all
`batch*(L-1)` pairs divided by `batch*(L-1)`. -/
theorem loss_framing (ce : List ℚ → ℕ → ℚ) (sg : ℚ → ℚ) (g : GEN)
    (data : List (List ℕ)) (L : ℕ)
    (hwf : stackChans g.layers g.input_size) (hE : 1 ≤ g.input_size)
    (hL : 2 ≤ L) (hdata : ∀ s ∈ data, s.length = L) :
    inputsOf data = data.map (fun s => s.take (L - 1)) ∧
    targetsOf data = data.map (fun s => s.drop 1) ∧
    (logitsOf sg g data).length = data.length ∧
    (∀ o ∈ logitsOf sg g data, o.length = L - 1 ∧
      ∀ row ∈ o, row.length = g.decW.length) ∧
    batchLoss ce sg g data =
      (List.zipWith ce (logitsOf sg g data).flatten
          (targetsOf data).flatten).foldl (· + ·) 0 /
        ((data.length * (L - 1) : ℕ) : ℚ) := by
  refine ⟨?_, rfl, by simp [logitsOf, inputsOf], ?_, ?_⟩
  · unfold inputsOf
    apply List.map_congr_left
    intro s hs
    rw [List.dropLast_eq_take, hdata s hs]
  · intro o ho
    obtain ⟨inp, hinp, rfl⟩ := List.mem_map.mp ho
    obtain ⟨s, hsd, rfl⟩ := List.mem_map.mp hinp
    have hlen : s.dropLast.length = L - 1 := by
      rw [List.length_dropLast, hdata s hsd]
    obtain ⟨hlen2, hrow⟩ := gen_forward_shape sg g s.dropLast hwf hE
    exact ⟨by rw [hlen2, hlen], hrow⟩
  · unfold batchLoss
    have hden : (targetsOf data).flatten.length = data.length * (L - 1) := by
      rw [List.length_flatten]
      unfold targetsOf
      rw [List.map_map]
      have h1 : data.map (List.length ∘ List.drop 1) =
          data.map (fun _ => L - 1) :=
        List.map_congr_left (by intro s hs; simp [hdata s hs])
      rw [h1, List.map_const', List.sum_replicate, smul_eq_mul]
    rw [hden]

/-- Witness for the C5 theorem: a concrete batch of one length-3 sequence
through a concrete one-layer model. -/
theorem loss_framing_witness :
    (logitsOf (fun q => q) c2Gen [[0, 1, 2]]).length = 1 ∧
      ∀ o ∈ logitsOf (fun q => q) c2Gen [[0, 1, 2]], o.length = 2 ∧
        ∀ row ∈ o, row.length = 1 := by
  have h := loss_framing (fun _ _ => (1 : ℚ)) (fun q => q) c2Gen [[0, 1, 2]] 3
    ⟨rfl, ⟨by decide, by decide, by decide, by decide, by decide, by decide⟩,
      trivial⟩ (by decide) (by decide) (by decide)
  exact ⟨h.2.2.1, h.2.2.2.1⟩

theorem if_lt_eq_min (v best : ℚ) :
    (if v < best then v else best) = min best v := by
  rcases lt_or_ge v best with h | h
  · rw [if_pos h, min_eq_right h.le]
  · rw [if_neg (not_lt.mpr h), min_eq_left h]

theorem checkpointTrace_flag : ∀ (losses : List ℚ) (best : ℚ) (e : ℕ),
    e < losses.length →
    ((checkpointTrace losses best).getD e (0, false)).2 =
      decide (losses.getD e 0 < (losses.take e).foldl min best)
  | [], _, e, he => by simp at he
  | v :: rest, best, 0, _ => by simp [checkpointTrace]
  | v :: rest, best, e + 1, he => by
    simp only [checkpointTrace, List.getD_cons_succ, List.take_succ_cons,
      List.foldl_cons]
    rw [checkpointTrace_flag rest _ e (by simpa using he), if_lt_eq_min]

theorem lt_foldl_min (v : ℚ) : ∀ (l : List ℚ) (b : ℚ),
    v < l.foldl min b ↔ v < b ∧ ∀ x ∈ l, v < x
  | [], b => by simp
  | x :: xs, b => by
    rw [List.foldl_cons, lt_foldl_min v xs (min b x)]
    constructor
    · rintro ⟨h1, h2⟩
      refine ⟨(lt_min_iff.mp h1).1, fun y hy => ?_⟩
      rcases List.mem_cons.mp hy with rfl | hy
      · exact (lt_min_iff.mp h1).2
      · exact h2 y hy
    · rintro ⟨h1, h2⟩
      exact ⟨lt_min_iff.mpr ⟨h1, h2 x (by simp)⟩, fun y hy => h2 y (by simp [hy])⟩

theorem getD_mem_take {l : List ℚ} {j e : ℕ} (hj : j < e) (hjl : j < l.length) :
    l.getD j 0 ∈ l.take e := by
  rw [List.getD_eq_getElem _ _ hjl]
  have h1 : j < (l.take e).length := by
    simp only [List.length_take]
    omega
  have h2 : (l.take e)[j] = l[j] := List.getElem_take _
  rw [← h2]
  exact List.getElem_mem h1

theorem savedLosses_decreasing : ∀ (losses : List ℚ) (best : ℚ),
    (∀ s ∈ ((checkpointTrace losses best).filter (fun p => p.2)).map
      (fun p => p.1), s < best) ∧
    (((checkpointTrace losses best).filter (fun p => p.2)).map
      (fun p => p.1)).Pairwise (· > ·)
  | [], best => by simp [checkpointTrace]
  | v :: rest, best => by
    simp only [checkpointTrace]
    by_cases h : v < best
    · simp only [if_pos h, decide_eq_true h, List.filter_cons_of_pos, List.map_cons]
      obtain ⟨ih1, ih2⟩ := savedLosses_decreasing rest v
      refine ⟨?_, ?_⟩
      · intro s hs
        rcases List.mem_cons.mp hs with rfl | hs
        · exact h
        · exact lt_trans (ih1 s hs) h
      · rw [List.pairwise_cons]
        exact ⟨fun s hs => ih1 s hs, ih2⟩
    · simp only [if_neg h, decide_eq_false h, List.filter_cons_of_neg]
      exact savedLosses_decreasing rest best

/-- C6: after each epoch, parameters are persisted iff the epoch's validation
loss is strictly lower than the sentinel (100) and than every earlier
validation loss (equivalently, than the running best, which is the minimum of
the sentinel and all previously saved losses); consequently the saved
validation losses are strictly decreasing, in particular non-increasing. -/
theorem checkpoint_save_iff (losses : List ℚ) :
    (∀ e, e < losses.length →
      (((checkpointTrace losses sentinel).getD e (0, false)).2 = true ↔
        (losses.getD e 0 < sentinel ∧
          ∀ j, j < e → losses.getD e 0 < losses.getD j 0))) ∧
    (savedLosses losses).Pairwise (· ≥ ·) := by
  constructor
  · intro e he
    rw [checkpointTrace_flag losses sentinel e he, decide_eq_true_eq,
      lt_foldl_min]
    constructor
    · rintro ⟨h1, h2⟩
      refine ⟨h1, fun j hj => ?_⟩
      exact h2 _ (getD_mem_take hj (by omega))
    · rintro ⟨h1, h2⟩
      refine ⟨h1, fun x hx => ?_⟩
      obtain ⟨j, hj, rfl⟩ := List.getElem_of_mem hx
      have hj2 : j < e := by
        simp only [List.length_take] at hj
        omega
      have hj3 : j < losses.length := by
        simp only [List.length_take] at hj
        omega
      rw [List.getElem_take _, ← List.getD_eq_getElem _ 0 hj3]
      exact h2 j hj2
  · exact List.Pairwise.imp (fun h => le_of_lt h)
      (savedLosses_decreasing losses sentinel).2

/-- Witness for the C6 theorem: the save decision of epoch 1 on the concrete
validation-loss sequence `[99, 98, 99.5]`. -/
theorem checkpoint_save_iff_witness :
    (((checkpointTrace [(99 : ℚ), 98, 99.5] sentinel).getD 1 (0, false)).2 = true ↔
      ([(99 : ℚ), 98, 99.5].getD 1 0 < sentinel ∧
        ∀ j, j < 1 → [(99 : ℚ), 98, 99.5].getD 1 0 < [(99 : ℚ), 98, 99.5].getD j 0)) ∧
    (savedLosses [(99 : ℚ), 98, 99.5]).Pairwise (· ≥ ·) :=
  ⟨(checkpoint_save_iff [(99 : ℚ), 98, 99.5]).1 1 (by norm_num),
    (checkpoint_save_iff [(99 : ℚ), 98, 99.5]).2⟩

/-- C8: when `n_inputs = n_outputs` the block output is exactly the gated
(dropout is the identity at inference) convolution output plus the raw input
— no projection is invoked; when the channel counts differ, the input is
first projected by the learned 1×1 convolution `trans` (kernel size 1,
stride 1, dilation 1, no padding) and the projection is added instead. -/
theorem residual_path (sg : ℚ → ℚ) (l : ConvLayer) (x : List (List ℚ)) :
    (l.n_inputs = l.n_outputs →
      ConvLayer.forward sg l x = addMat (gatedOut sg l x) x) ∧
    (l.n_inputs ≠ l.n_outputs →
      ConvLayer.forward sg l x =
        addMat (gatedOut sg l x) (conv1d l.transW l.transB 1 1 0 x)) := by
  constructor
  · intro h
    simp only [ConvLayer.forward, if_pos h]
  · intro h
    simp only [ConvLayer.forward, if_neg h]

/-- Witness for the C8 theorem: both branches at concrete layers. -/
theorem residual_path_witness :
    (ConvLayer.forward (fun q => q) c1Layer [[(1 : ℚ), 2, 3]] =
      addMat (gatedOut (fun q => q) c1Layer [[(1 : ℚ), 2, 3]]) [[(1 : ℚ), 2, 3]]) ∧
    (ConvLayer.forward (fun q => q) c8Layer [[(1 : ℚ), 2, 3]] =
      addMat (gatedOut (fun q => q) c8Layer [[(1 : ℚ), 2, 3]])
        (conv1d c8Layer.transW c8Layer.transB 1 1 0 [[(1 : ℚ), 2, 3]])) :=
  ⟨(residual_path (fun q => q) c1Layer [[(1 : ℚ), 2, 3]]).1 (by decide),
    (residual_path (fun q => q) c8Layer [[(1 : ℚ), 2, 3]]).2 (by decide)⟩

/-- C9: `GEN.forward` never applies `self.linear` — two models that differ
only in the weights `linW` of that layer (which is constructed and thus part
of the model state) produce identical outputs on every input. -/
theorem linear_layer_unused (sg : ℚ → ℚ) (g : GEN) (w : List (List ℚ))
    (toks : List ℕ) :
    GEN.forward sg { g with linW := w } toks = GEN.forward sg g toks := rfl

end GenSpec

